import Mathlib

/-!
Verification development for the `digger` execution core
(`pkg/core/execution/execution.go`): the output sanitizer, the plan-path
provider, the step-interpreting executor and its locking decorator.

Go strings are modelled as `List Char`; byte indices of the Go string
functions become character indices, which preserves every structural
relationship (search, last search, slicing) used by the code.  Fallible
operations return `Option`; a Go slice-bounds panic is modelled by an
`Option` result of `none`.
-/

namespace Digger

/-- Model of a Go string: a list of characters. -/
abbrev Str := List Char

/-- Model of a Go `error` value: its message string. -/
abbrev GoError := Str

/-- `leadsWith p s` models "`s` has `p` as a prefix of its characters". -/
def leadsWith : Str → Str → Bool
  | [], _ => true
  | _ :: _, [] => false
  | a :: p, b :: s => a = b && leadsWith p s

/-- `subStr m s` states that `m` occurs contiguously inside `s`. -/
def subStr (m s : Str) : Prop := ∃ u v, u ++ (m ++ v) = s

/-- Models Go `strings.Index`: the first position where `sub` occurs in
`s`, `none` when absent (Go returns `-1`). -/
def goIndex (s sub : Str) : Option Nat :=
  if leadsWith sub s then some 0
  else
    match s with
    | [] => none
    | _ :: t => (goIndex t sub).map (· + 1)

/-- Models Go `strings.LastIndex`: the last position where `sub` occurs in
`s`, `none` when absent (Go returns `-1`). -/
def goLastIndex (s sub : Str) : Option Nat :=
  match s with
  | [] => if leadsWith sub [] then some 0 else none
  | c :: t =>
    match goLastIndex t sub with
    | some j => some (j + 1)
    | none => if leadsWith sub (c :: t) then some 0 else none

/-- The fixed marker stripped by step 1 of the sanitizer. -/
def initMarker : Str := "Initializing the backend...".toList

/-- Start anchor used when the plan has changes. -/
def changesAnchor : Str := "Terraform will perform the following actions:".toList

/-- Start anchor used when the plan has no changes. -/
def noChangesAnchor : Str := "No changes. Your infrastructure matches the configuration.".toList

/-- The start anchor chosen by the sanitizer for a given change flag. -/
def anchorFor (nonEmptyOutput : Bool) : Str :=
  if nonEmptyOutput then changesAnchor else noChangesAnchor

/-- Step 1 of the sanitizer: when `initMarker` occurs in `s`, discard
everything before it (`stdout = stdout[i:]` in the source). -/
def trimInit (s : Str) : Str :=
  match goIndex s initMarker with
  | some i => s.drop i
  | none => s

/-- The sanitizer's start position: the index of the chosen anchor,
defaulting to `0` when the anchor is absent (Go's `-1` check). -/
def cleanupStart (nonEmptyOutput : Bool) (stdout : Str) : Nat :=
  (goIndex stdout (anchorFor nonEmptyOutput)).getD 0

/-- The sanitizer's raw end position before the guard: the string length,
or — when a pattern is supplied and matches — Go's
`LastIndex(stdout, firstMatch) + len(firstMatch)` (an `int`, since
`LastIndex` can return `-1`). -/
def cleanupEndRaw (stdout : Str) : Option (Str → Option Str) → Int
  | none => (stdout.length : Int)
  | some f =>
    match f stdout with
    | none => (stdout.length : Int)
    | some firstMatch =>
      (match goLastIndex stdout firstMatch with
       | some k => (k : Int)
       | none => -1) + (firstMatch.length : Int)

/-- The sanitizer's end position after the guard `if endPos <= startPos`
that resets it to the string length. -/
def cleanupEnd (nonEmptyOutput : Bool) (stdout : Str)
    (regexMatcher : Option (Str → Option Str)) : Int :=
  if cleanupEndRaw stdout regexMatcher ≤ (cleanupStart nonEmptyOutput stdout : Int)
  then (stdout.length : Int) else cleanupEndRaw stdout regexMatcher

/-- Embedding of `cleanupTerraformOutput`.  A trailing pattern is modelled
by the function `Str → Option Str` returning the leftmost regex match, the
only capability of `regexp` the source uses (`FindStringSubmatch` followed
by `LastIndex` on the matched text).  The result is `none` exactly when the
final Go slice expression `stdout[startPos:endPos]` would be out of range
(a panic); otherwise it is `some` of that slice. -/
def cleanupTerraformOutput? (nonEmptyOutput : Bool) (planError : Option GoError)
    (stdout0 stderr : Str) (regexMatcher : Option (Str → Option Str)) : Option Str :=
  let stdout := trimInit stdout0
  match planError with
  | some _ =>
    some (if stderr ≠ [] then stderr else if stdout ≠ [] then stdout else [])
  | none =>
    let startPos : Nat := cleanupStart nonEmptyOutput stdout
    let endPos : Int := cleanupEnd nonEmptyOutput stdout regexMatcher
    if (startPos : Int) ≤ endPos ∧ endPos ≤ (stdout.length : Int) then
      some ((stdout.take endPos.toNat).drop startPos)
    else none

/-- The run of box-drawing dashes in the plan-trimming pattern
`───────────.+` (eleven of them). -/
def sepDashes : Str := List.replicate 11 '─'

/-- A match of the pattern `───────────.+` beginning at the head of `s`:
the eleven dashes followed by the maximal nonempty run of non-newline
characters (Go's `.` does not match a newline and `+` is greedy). -/
def sepMatchAt (s : Str) : Option Str :=
  if leadsWith sepDashes s then
    match s.drop sepDashes.length with
    | [] => none
    | c :: rest =>
      if c = '\n' then none
      else some (sepDashes ++ (c :: rest).takeWhile (fun x => x ≠ '\n'))
  else none

/-- Models Go `regexp.FindStringSubmatch` for the fixed pattern
`───────────.+`: the match at the leftmost position where one begins. -/
def sepFindFirst : Str → Option Str
  | [] => none
  | c :: t =>
    match sepMatchAt (c :: t) with
    | some m => some m
    | none => sepFindFirst t

/-- Embedding of `cleanupTerraformApply`: the shared sanitizer with no
trailing pattern. -/
def cleanupTerraformApply (nonEmptyPlan : Bool) (planError : Option GoError)
    (stdout stderr : Str) : Option Str :=
  cleanupTerraformOutput? nonEmptyPlan planError stdout stderr none

/-- Embedding of `cleanupTerraformPlan`: the shared sanitizer with the
trailing pattern `───────────.+`. -/
def cleanupTerraformPlan (nonEmptyPlan : Bool) (planError : Option GoError)
    (stdout stderr : Str) : Option Str :=
  cleanupTerraformOutput? nonEmptyPlan planError stdout stderr (some sepFindFirst)

/-- Models `strings.ReplaceAll` for the single-character patterns used by
the source (`"/"` replaced by `":"`). -/
def replaceAllChar (s : Str) (a b : Char) : Str :=
  s.map (fun c => if c = a then b else c)

/-- Splits a string at every `'/'`; always returns at least one segment. -/
def splitOnSlash : Str → List Str
  | [] => [[]]
  | c :: t =>
    match splitOnSlash t with
    | [] => []
    | p :: ps => if c = '/' then [] :: p :: ps else (c :: p) :: ps

/-- Segment processing of Go `path.Clean`: drops empty and `.` segments and
resolves `..` against the output stack (kept reversed). -/
def cleanSeg (rooted : Bool) : List Str → List Str → List Str
  | [], stack => stack
  | seg :: rest, stack =>
    if seg = [] ∨ seg = ['.'] then cleanSeg rooted rest stack
    else if seg = ['.', '.'] then
      match stack with
      | [] => if rooted then cleanSeg rooted rest [] else cleanSeg rooted rest [seg]
      | top :: s' =>
        if rooted then cleanSeg rooted rest s'
        else if top = ['.', '.'] then cleanSeg rooted rest (seg :: top :: s')
        else cleanSeg rooted rest s'
    else cleanSeg rooted rest (seg :: stack)

/-- Joins segments with `'/'` separators. -/
def joinSegs : List Str → Str
  | [] => []
  | [s] => s
  | s :: t :: rest => s ++ '/' :: joinSegs (t :: rest)

/-- Models Go `path.Clean`: lexical normalization of a slash-separated
path (empty path becomes `.`; `.` and resolvable `..` segments vanish). -/
def goPathClean (p : Str) : Str :=
  if p = [] then ['.']
  else
    let rooted := leadsWith ['/'] p
    let stack := (cleanSeg rooted (splitOnSlash p) []).reverse
    if rooted then '/' :: joinSegs stack
    else if stack = [] then ['.']
    else joinSegs stack

/-- Models Go `path.Join` for two elements: the non-empty elements joined
with `'/'` and cleaned. -/
def goPathJoin (a b : Str) : Str :=
  if a ≠ [] then goPathClean (a ++ '/' :: b)
  else if b ≠ [] then goPathClean b
  else []

/-- The `.tfplan` file suffix. -/
def tfplanSuffix : Str := ".tfplan".toList

/-- Embedding of the `ProjectPathProvider` struct. -/
structure ProjectPathProvider where
  projectPath : Str
  projectNamespace : Str
  projectName : Str

/-- Embedding of `ProjectPathProvider.PlanFileName`. -/
def ProjectPathProvider.planFileName (d : ProjectPathProvider) : Str :=
  replaceAllChar d.projectNamespace '/' ':' ++ '#' :: (d.projectName ++ tfplanSuffix)

/-- Embedding of `ProjectPathProvider.LocalPlanFilePath`. -/
def ProjectPathProvider.localPlanFilePath (d : ProjectPathProvider) : Str :=
  goPathJoin d.projectPath d.planFileName

/-- Embedding of `ProjectPathProvider.StoredPlanFilePath`. -/
def ProjectPathProvider.storedPlanFilePath (d : ProjectPathProvider) : Str :=
  goPathJoin d.projectNamespace d.planFileName

/-- Modelled from the spec: the `PlanPathProvider` interface of the source,
a record of the three derived names (`digger/pkg/core` interface code is
not part of the sources under review beyond its use sites). -/
structure PlanPathProvider where
  localPlanFilePath : Str
  storedPlanFilePath : Str
  planFileName : Str

/-- The record of derived names produced by a `ProjectPathProvider`. -/
def ProjectPathProvider.toProvider (d : ProjectPathProvider) : PlanPathProvider :=
  ⟨d.localPlanFilePath, d.storedPlanFilePath, d.planFileName⟩

/-- Modelled from the spec: a `models.Step` — an action name, extra
arguments, a command body and a shell (the `digger/pkg/core/models`
package is not among the sources under review). -/
structure Step where
  action : Str
  extraArgs : List Str
  value : Str
  shell : Str

/-- Modelled from the spec: a `models.Stage`, an ordered list of steps. -/
structure Stage where
  steps : List Step

/-- Environment overlays (`StateEnvVars` / `CommandEnvVars`) are passed
through to collaborators unexamined; an association list suffices. -/
abbrev EnvMap := List (Str × Str)

/-- Modelled from the spec: the tool-runner contract
(`Init`, `Plan`, `Apply` of `terraform.TerraformExecutor`), as result
oracles indexed by the call arguments. -/
structure TerraformExecutor where
  init : List Str → EnvMap → Str × Str × Option GoError
  plan : List Str → EnvMap → Bool × Str × Str × Option GoError
  applyOp : List Str → Option Str → EnvMap → Str × Str × Option GoError

/-- Modelled from the spec: the command-runner contract
(`runners.CommandRun.Run(workingDir, shell, commands)`). -/
structure CommandRun where
  run : Str → Str → List Str → Str × Str × Option GoError

/-- Modelled from the spec: a reporting formatter, wrapping content as a
labeled collapsible block (`digger/pkg/core/utils`). -/
inductive Formatter where
  | terraformCollapsible (label : Str)
  | collapsible (label : Str)
deriving DecidableEq

/-- Modelled from the spec: `utils.GetTerraformOutputAsCollapsibleComment`. -/
def GetTerraformOutputAsCollapsibleComment (label : Str) : Formatter :=
  .terraformCollapsible label

/-- Modelled from the spec: `utils.AsCollapsibleComment`. -/
def AsCollapsibleComment (label : Str) : Formatter :=
  .collapsible label

/-- Modelled from the spec: the reporter contract
(`reporting.Reporter.Report(content, formatter)`). -/
structure Reporter where
  report : Str → Formatter → Option GoError

/-- Modelled from the spec: the artifact-store contract
(`storage.PlanStorage`). -/
structure PlanStorage where
  planExists : Str → Bool × Option GoError
  deleteStoredPlan : Str → Option GoError
  storePlan : Str → Str → Option GoError
  retrievePlan : Str → Str → Option Str × Option GoError

/-- Modelled from the spec: the project-lock contract
(`locking.ProjectLock`), as result oracles. -/
structure ProjectLock where
  lockResult : Bool × Option GoError
  forceUnlockResult : Option GoError
  lockId : Str

/-- Embedding of the `DiggerExecutor` struct. -/
structure DiggerExecutor where
  projectNamespace : Str
  projectName : Str
  projectPath : Str
  stateEnvVars : EnvMap
  commandEnvVars : EnvMap
  applyStage : Option Stage
  planStage : Option Stage
  commandRunner : CommandRun
  terraformExecutor : TerraformExecutor
  reporter : Reporter
  planStorage : Option PlanStorage
  planPathProvider : PlanPathProvider

/-- One observable external interaction of the executor.  `sanitizeCall`
additionally instruments the (internal, pure) sanitizer invocations so
that claims about when the sanitizer runs can be stated. -/
inductive Event where
  | initCall (args : List Str)
  | planCall (args : List Str)
  | applyCall (args : List Str) (planFile : Option Str)
  | runCall (dir shell : Str) (commands : List Str)
  | sanitizeCall (nonEmpty : Bool) (err : Option GoError) (stdout stderr : Str)
  | reportCall (content : Str) (formatter : Formatter)
  | planExistsCall (key : Str)
  | deletePlanCall (key : Str)
  | storePlanCall (localPath key : Str)
  | retrievePlanCall (localPath key : Str)
deriving DecidableEq

/-- The report events of a trace, as `(content, formatter)` pairs. -/
def reportsOf : List Event → List (Str × Formatter)
  | [] => []
  | Event.reportCall c f :: t => (c, f) :: reportsOf t
  | _ :: t => reportsOf t

/-- The sanitizer-invocation events of a trace. -/
def sanitizesOf : List Event → List (Bool × Option GoError × Str × Str)
  | [] => []
  | Event.sanitizeCall ne err so se :: t => (ne, err, so, se) :: sanitizesOf t
  | _ :: t => sanitizesOf t

/-- Action strings compared against `step.Action` in the source. -/
def actionInit : Str := "init".toList

/-- The `plan` action string. -/
def actionPlan : Str := "plan".toList

/-- The `apply` action string. -/
def actionApply : Str := "apply".toList

/-- The `run` action string. -/
def actionRun : Str := "run".toList

/-- The `-out` flag passed to the tool's plan operation. -/
def outFlag : Str := "-out".toList

/-- Name of the environment variable enabling venv activation. -/
def activateVenvKey : Str := "ACTIVATE_VENV".toList

/-- Name of the workspace-root environment variable. -/
def githubWorkspaceKey : Str := "GITHUB_WORKSPACE".toList

/-- The value a flag variable is compared against. -/
def trueStr : Str := "true".toList

/-- Prefix of the venv activation command (`source %v/.venv/bin/activate`). -/
def venvSourceHead : Str := "source ".toList

/-- Suffix of the venv activation command. -/
def venvSourceTail : Str := "/.venv/bin/activate".toList

/-- The command list built for a `run` step from a venv base path:
the activation command (when the flag is on) followed by the step body. -/
def runCommands (env : Str → Str) (venvBase : Str) (step : Step) : List Str :=
  (if env activateVenvKey = trueStr
   then [venvSourceHead ++ venvBase ++ venvSourceTail] else []) ++ [step.value]

/-- Error wrapping `fmt.Errorf("error running init: %v", err)`. -/
def errRunningInit (e : GoError) : GoError := "error running init: ".toList ++ e

/-- Error wrapping for a failed plan invocation. -/
def errExecutingPlan (e : GoError) : GoError := "error executing plan: ".toList ++ e

/-- Error wrapping for a failed plan-existence check. -/
def errCheckingPlan (e : GoError) : GoError := "error checking if plan exists: ".toList ++ e

/-- Error wrapping for a failed stored-plan deletion. -/
def errDeletingPlan (e : GoError) : GoError := "error deleting plan: ".toList ++ e

/-- Error wrapping for a failed plan store. -/
def errStoringPlan (e : GoError) : GoError := "error storing plan: ".toList ++ e

/-- Error wrapping for a failed `run` step. -/
def errRunningCommand (e : GoError) : GoError := "error running command: ".toList ++ e

/-- Error wrapping for a failed plan retrieval. -/
def errRetrievingPlan (e : GoError) : GoError := "error retrieving plan: ".toList ++ e

/-- Error wrapping for a failed apply invocation. -/
def errExecutingApply (e : GoError) : GoError := "error executing apply: ".toList ++ e

/-- Error wrapping used by the locking decorator's `Plan`/`Apply`. -/
def errLockingProject (e : GoError) : GoError := "error locking project: ".toList ++ e

/-- Error wrapping used by the decorator's `Lock`/`Unlock` (the source
spells `aquire`). -/
def errAcquireLock (lockId e : GoError) : GoError :=
  "failed to aquire lock: ".toList ++ lockId ++ ", ".toList ++ e

/-- The label of the apply report comment. -/
def applyCommentLabel (d : DiggerExecutor) : Str :=
  "Apply for <b>".toList ++ d.projectNamespace ++ '#' :: (d.projectName ++ "</b>".toList)

/-- The label of the apply error report comment. -/
def errorApplyingLabel : Str := "Error during applying.".toList

/-- The plan arguments built for a `plan` step:
`["-out", PlanFileName()] ++ step.ExtraArgs`. -/
def planArgsOf (d : DiggerExecutor) (step : Step) : List Str :=
  outFlag :: d.planPathProvider.planFileName :: step.extraArgs

/-- The conditional deletion of an existing stored plan inside `Plan`'s
storage block. -/
def execPlanDelete (ps : PlanStorage) (stored : Str) (planExists : Bool) :
    Option (Bool × Str × Option GoError) × List Event :=
  if planExists then
    match ps.deleteStoredPlan stored with
    | some e =>
      (some (false, [], some (errDeletingPlan e)), [Event.deletePlanCall stored])
    | none => (none, [Event.deletePlanCall stored])
  else (none, [])

/-- The storage block of `Plan`'s `plan` step (existence check, delete,
store), entered only when a storage is configured: either an early-return
`(success, plan, error)` triple or a go-ahead, with the emitted events. -/
def execPlanStorage (d : DiggerExecutor) :
    Option (Bool × Str × Option GoError) × List Event :=
  match d.planStorage with
  | none => (none, [])
  | some ps =>
    match ps.planExists d.planPathProvider.storedPlanFilePath with
    | (_, some e) =>
      (some (false, [], some (errCheckingPlan e)),
        [.planExistsCall d.planPathProvider.storedPlanFilePath])
    | (planExists, none) =>
      match execPlanDelete ps d.planPathProvider.storedPlanFilePath planExists with
      | (some r, evs) =>
        (some r, Event.planExistsCall d.planPathProvider.storedPlanFilePath :: evs)
      | (none, evs) =>
        match ps.storePlan d.planPathProvider.localPlanFilePath
            d.planPathProvider.storedPlanFilePath with
        | some e =>
          (some (false, [], some (errStoringPlan e)),
            Event.planExistsCall d.planPathProvider.storedPlanFilePath ::
              evs ++ [.storePlanCall d.planPathProvider.localPlanFilePath
                d.planPathProvider.storedPlanFilePath])
        | none =>
          (none, Event.planExistsCall d.planPathProvider.storedPlanFilePath ::
            evs ++ [.storePlanCall d.planPathProvider.localPlanFilePath
              d.planPathProvider.storedPlanFilePath])

/-- Result of interpreting one plan step: `none` models a panic; otherwise
the step either early-returns a `(success, plan, error)` triple or yields
the updated remembered plan text, together with the emitted events. -/
def execPlanStep (d : DiggerExecutor) (env : Str → Str) (step : Step) (plan : Str) :
    Option (Option (Bool × Str × Option GoError) × Str × List Event) :=
  if step.action = actionInit then
    match (d.terraformExecutor.init step.extraArgs d.stateEnvVars).2.2 with
    | some e => some (some (false, [], some (errRunningInit e)), plan, [.initCall step.extraArgs])
    | none => some (none, plan, [.initCall step.extraArgs])
  else if step.action = actionPlan then
    match d.terraformExecutor.plan (planArgsOf d step) d.commandEnvVars with
    | (isNonEmptyPlan, stdout, stderr, err) =>
      match err with
      | some e =>
        some (some (false, [], some (errExecutingPlan e)), plan,
          [.planCall (planArgsOf d step)])
      | none =>
        match execPlanStorage d with
        | (some r, evs) => some (some r, plan, Event.planCall (planArgsOf d step) :: evs)
        | (none, evs) =>
          match cleanupTerraformPlan isNonEmptyPlan none stdout stderr with
          | none => none
          | some plan' =>
            some (none, plan', Event.planCall (planArgsOf d step) ::
              evs ++ [.sanitizeCall isNonEmptyPlan none stdout stderr])
  else if step.action = actionRun then
    match (d.commandRunner.run d.projectPath step.shell
        (runCommands env (env githubWorkspaceKey) step)).2.2 with
    | some e =>
      some (some (false, [], some (errRunningCommand e)), plan,
        [.runCall d.projectPath step.shell (runCommands env (env githubWorkspaceKey) step)])
    | none =>
      some (none, plan,
        [.runCall d.projectPath step.shell (runCommands env (env githubWorkspaceKey) step)])
  else some (none, plan, [])

/-- The loop of `DiggerExecutor.Plan` over its step list. -/
def execPlanSteps (d : DiggerExecutor) (env : Str → Str) :
    List Step → Str → Option ((Bool × Str × Option GoError) × List Event)
  | [], plan => some ((true, plan, none), [])
  | step :: rest, plan =>
    match execPlanStep d env step plan with
    | none => none
    | some (some r, _, evs) => some (r, evs)
    | some (none, plan', evs) =>
      match execPlanSteps d env rest plan' with
      | none => none
      | some (r, evs') => some (r, evs ++ evs')

/-- The step list used by `Plan`: the plan stage's steps, or the default
`[init, plan]`. -/
def planStepsOf (d : DiggerExecutor) : List Step :=
  match d.planStage with
  | some stage => stage.steps
  | none => [⟨actionInit, [], [], []⟩, ⟨actionPlan, [], [], []⟩]

/-- Embedding of `DiggerExecutor.Plan`.  `env` models `os.Getenv`; the
result carries the trace of external interactions; `none` models a panic. -/
def DiggerExecutor.planExec (d : DiggerExecutor) (env : Str → Str) :
    Option ((Bool × Str × Option GoError) × List Event) :=
  execPlanSteps d env (planStepsOf d) []

/-- Result of interpreting one apply step (see `execPlanStep`). -/
def execApplyStep (d : DiggerExecutor) (env : Str → Str) (plansFilename : Option Str)
    (step : Step) : Option (Option (Bool × Option GoError) × List Event) :=
  if step.action = actionInit then
    match (d.terraformExecutor.init step.extraArgs d.stateEnvVars).2.2 with
    | some e => some (some (false, some (errRunningInit e)), [.initCall step.extraArgs])
    | none => some (none, [.initCall step.extraArgs])
  else if step.action = actionApply then
    match d.terraformExecutor.applyOp step.extraArgs plansFilename d.commandEnvVars with
    | (stdout, stderr, err) =>
      match cleanupTerraformApply true err stdout stderr with
      | none => none
      | some applyOutput =>
        match d.reporter.report applyOutput
            (GetTerraformOutputAsCollapsibleComment (applyCommentLabel d)) with
        | _ =>
          match err with
          | some e =>
            match d.reporter.report e (AsCollapsibleComment errorApplyingLabel) with
            | _ =>
              some (some (false, some (errExecutingApply e)),
                [Event.applyCall step.extraArgs plansFilename,
                  Event.sanitizeCall true err stdout stderr,
                  Event.reportCall applyOutput
                    (GetTerraformOutputAsCollapsibleComment (applyCommentLabel d)),
                  Event.reportCall e (AsCollapsibleComment errorApplyingLabel)])
          | none =>
            some (none,
              [Event.applyCall step.extraArgs plansFilename,
                Event.sanitizeCall true err stdout stderr,
                Event.reportCall applyOutput
                  (GetTerraformOutputAsCollapsibleComment (applyCommentLabel d))])
  else if step.action = actionRun then
    match (d.commandRunner.run d.projectPath step.shell
        (runCommands env d.projectPath step)).2.2 with
    | some e =>
      some (some (false, some (errRunningCommand e)),
        [.runCall d.projectPath step.shell (runCommands env d.projectPath step)])
    | none => some (none, [.runCall d.projectPath step.shell (runCommands env d.projectPath step)])
  else some (none, [])

/-- The loop of `DiggerExecutor.Apply` over its step list. -/
def execApplySteps (d : DiggerExecutor) (env : Str → Str) (plansFilename : Option Str) :
    List Step → Option ((Bool × Option GoError) × List Event)
  | [] => some ((true, none), [])
  | step :: rest =>
    match execApplyStep d env plansFilename step with
    | none => none
    | some (some r, evs) => some (r, evs)
    | some (none, evs) =>
      match execApplySteps d env plansFilename rest with
      | none => none
      | some (r, evs') => some (r, evs ++ evs')

/-- The step list used by `Apply`: the apply stage's steps, or the default
`[init, apply]`. -/
def applyStepsOf (d : DiggerExecutor) : List Step :=
  match d.applyStage with
  | some stage => stage.steps
  | none => [⟨actionInit, [], [], []⟩, ⟨actionApply, [], [], []⟩]

/-- Embedding of `DiggerExecutor.Apply`: first retrieves the stored plan
when storage is configured, then interprets the apply steps. -/
def DiggerExecutor.applyExec (d : DiggerExecutor) (env : Str → Str) :
    Option ((Bool × Option GoError) × List Event) :=
  match d.planStorage with
  | some ps =>
    match ps.retrievePlan d.planPathProvider.localPlanFilePath
        d.planPathProvider.storedPlanFilePath with
    | (_, some e) =>
      some ((false, some (errRetrievingPlan e)),
        [.retrievePlanCall d.planPathProvider.localPlanFilePath
          d.planPathProvider.storedPlanFilePath])
    | (plansFilename, none) =>
      match execApplySteps d env plansFilename (applyStepsOf d) with
      | none => none
      | some (r, evs) =>
        some (r, Event.retrievePlanCall d.planPathProvider.localPlanFilePath
          d.planPathProvider.storedPlanFilePath :: evs)
  | none => execApplySteps d env none (applyStepsOf d)

/-- Embedding of the `LockingExecutorWrapper` struct: the project lock
oracle together with the wrapped executor's would-be results. -/
structure LockingExecutorWrapper where
  projectLock : ProjectLock
  executorPlanResult : Bool × Str × Option GoError
  executorApplyResult : Bool × Option GoError

/-- Embedding of `LockingExecutorWrapper.Plan`.  The second component of
the result records whether the wrapped executor was invoked. -/
def LockingExecutorWrapper.planExec (l : LockingExecutorWrapper) :
    (Bool × Str × Option GoError) × Bool :=
  match l.projectLock.lockResult with
  | (_, some e) => ((false, [], some (errLockingProject e)), false)
  | (locked, none) =>
    if locked then (l.executorPlanResult, true) else ((false, [], none), false)

/-- Embedding of `LockingExecutorWrapper.Apply` (same instrumentation as
`planExec`). -/
def LockingExecutorWrapper.applyExec (l : LockingExecutorWrapper) :
    (Bool × Option GoError) × Bool :=
  match l.projectLock.lockResult with
  | (_, some e) => ((false, some (errLockingProject e)), false)
  | (locked, none) =>
    if locked then (l.executorApplyResult, true) else ((false, none), false)

/-- Embedding of `LockingExecutorWrapper.Lock`: the acquired flag is
discarded; only a locking error is wrapped and returned. -/
def LockingExecutorWrapper.lockOnly (l : LockingExecutorWrapper) : Option GoError :=
  match l.projectLock.lockResult with
  | (_, some e) => some (errAcquireLock l.projectLock.lockId e)
  | (_, none) => none

/-- Embedding of `LockingExecutorWrapper.Unlock`. -/
def LockingExecutorWrapper.unlockOnly (l : LockingExecutorWrapper) : Option GoError :=
  match l.projectLock.forceUnlockResult with
  | some e => some (errAcquireLock l.projectLock.lockId e)
  | none => none

/-- Specification-side description of the plan text `Plan` returns on
success: the sanitized output of the most recently executed `plan` step,
threaded left to right over the step list (later steps overwrite earlier
ones), starting from the given accumulator (`""` at the top level). -/
def specPlanText (d : DiggerExecutor) : List Step → Str → Str
  | [], acc => acc
  | s :: rest, acc =>
    if s.action = actionPlan then
      match d.terraformExecutor.plan (planArgsOf d s) d.commandEnvVars with
      | (ne, so, se, _) =>
        specPlanText d rest ((cleanupTerraformPlan ne none so se).getD acc)
    else specPlanText d rest acc

/-- A step preceding the failing apply step that completes without
aborting and without reporting: it is not an `apply` action and its
`init`/`run` collaborator call (if any) succeeds. -/
def preApplyOk (d : DiggerExecutor) (env : Str → Str) (s : Step) : Prop :=
  s.action ≠ actionApply ∧
  (s.action = actionInit → (d.terraformExecutor.init s.extraArgs d.stateEnvVars).2.2 = none) ∧
  (s.action = actionRun →
    (d.commandRunner.run d.projectPath s.shell (runCommands env d.projectPath s)).2.2 = none)

/-! Concrete fixtures used by counterexamples and witnesses. -/

/-- An environment with every variable unset. -/
def envEmpty : Str → Str := fun _ => []

/-- A command runner that always succeeds with empty output. -/
def okRunner : CommandRun := ⟨fun _ _ _ => ([], [], none)⟩

/-- A reporter that always succeeds. -/
def okReporter : Reporter := ⟨fun _ _ => none⟩

/-- A tool runner whose operations all succeed with empty output. -/
def okTf : TerraformExecutor :=
  ⟨fun _ _ => ([], [], none), fun _ _ => (true, [], [], none), fun _ _ _ => ([], [], none)⟩

/-- An empty path provider for fixtures that never consult it. -/
def nilProvider : PlanPathProvider := ⟨[], [], []⟩

/-- Base executor fixture: no stages, no storage, successful collaborators. -/
def baseExec : DiggerExecutor :=
  ⟨[], [], [], [], [], none, none, okRunner, okTf, okReporter, none, nilProvider⟩

/-- Fixture string `out`. -/
def cxOut : Str := "out".toList

/-- Fixture string `boom`. -/
def cxBoom : Str := "boom".toList

/-- Fixture string `oops`. -/
def cxOops : Str := "oops".toList

/-- A tool runner whose plan fails with stderr `boom` and error `oops`. -/
def planFailTf : TerraformExecutor :=
  ⟨fun _ _ => ([], [], none), fun _ _ => (true, cxOut, cxBoom, some cxOops),
    fun _ _ _ => ([], [], none)⟩

/-- A `plan` step with no extra arguments. -/
def planStep0 : Step := ⟨actionPlan, [], [], []⟩

/-- Executor whose single plan step's tool invocation errors (for C6). -/
def d6 : DiggerExecutor :=
  { baseExec with planStage := some ⟨[planStep0]⟩, terraformExecutor := planFailTf }

/-- A tool runner whose plan succeeds with a fixed output (for the C6
witness: the sanitizer runs, with a nil error). -/
def planOkTf : TerraformExecutor :=
  ⟨fun _ _ => ([], [], none), fun _ _ => (true, cxOut, cxBoom, none),
    fun _ _ _ => ([], [], none)⟩

/-- Executor whose single plan step succeeds (for the C6 witness). -/
def d6w : DiggerExecutor :=
  { baseExec with planStage := some ⟨[planStep0]⟩, terraformExecutor := planOkTf }

/-- A tool runner whose apply fails with stderr `boom` and error `oops`. -/
def applyFailTf : TerraformExecutor :=
  ⟨fun _ _ => ([], [], none), fun _ _ => (true, [], [], none),
    fun _ _ _ => (cxOut, cxBoom, some cxOops)⟩

/-- An `apply` step with no extra arguments. -/
def applyStep0 : Step := ⟨actionApply, [], [], []⟩

/-- Executor whose single apply step's tool invocation errors (for C3). -/
def d3 : DiggerExecutor :=
  { baseExec with applyStage := some ⟨[applyStep0]⟩, terraformExecutor := applyFailTf }

/-- Fixture command body `echo hi`. -/
def cxCmd : Str := "echo hi".toList

/-- Fixture shell name. -/
def cxShell : Str := "bash".toList

/-- A `run` step with fixture body and shell. -/
def runStep0 : Step := ⟨actionRun, [], cxCmd, cxShell⟩

/-- Fixture workspace-root value `ws`. -/
def cxWs : Str := "ws".toList

/-- Fixture project path `pp`. -/
def cxPp : Str := "pp".toList

/-- Environment enabling venv activation with workspace root `ws`. -/
def env7 : Str → Str := fun k =>
  if k = activateVenvKey then trueStr
  else if k = githubWorkspaceKey then cxWs else []

/-- Executor whose plan and apply stages are the same single `run` step,
with project path `pp` (for C7). -/
def d7 : DiggerExecutor :=
  { baseExec with
    projectPath := cxPp
    planStage := some ⟨[runStep0]⟩
    applyStage := some ⟨[runStep0]⟩ }

/-- A step with an unrecognized action (for the C10 witness). -/
def fooStep : Step := ⟨"foo".toList, [], [], []⟩

/-- Executor whose plan stage holds only an unrecognized step. -/
def d10 : DiggerExecutor := { baseExec with planStage := some ⟨[fooStep]⟩ }

/-- C4 counterexample namespace `a/b`. -/
def cxNsSlash : Str := "a/b".toList

/-- C4 counterexample namespace `a:b`. -/
def cxNsColon : Str := "a:b".toList

/-- C4 counterexample project name `c`. -/
def cxNameC : Str := "c".toList

/-- C4 scenario namespace `org/repo`. -/
def orgRepoNs : Str := "org/repo".toList

/-- C4 scenario project name `prod`. -/
def prodName : Str := "prod".toList

/-- C4 scenario expected plan file name. -/
def orgRepoFile : Str := "org:repo#prod.tfplan".toList

/-- C4 witness namespace `a`. -/
def wNsA : Str := "a".toList

/-- C4 witness project name `b`. -/
def wNameB : Str := "b".toList

/-- C5 counterexample stdout: a plan with two distinct separator lines. -/
def cx5Stdout : Str :=
  "Terraform will perform the following actions: p\n───────────A\nmid\n───────────B\ntail".toList

/-- What the C5 sanitizer actually returns on `cx5Stdout`: truncated just
past the last occurrence of the first match `───────────A`. -/
def cx5Actual : Str :=
  "Terraform will perform the following actions: p\n───────────A".toList

/-- What the claim would require on `cx5Stdout`: truncated just past the
last match of the pattern, `───────────B`. -/
def cx5Claimed : Str :=
  "Terraform will perform the following actions: p\n───────────A\nmid\n───────────B".toList

/-- C5 witness stdout. -/
def w5Stdout : Str := "x\n───────────Z\ntail".toList

/-- The first pattern match inside `w5Stdout`. -/
def w5Match : Str := "───────────Z".toList

/-- C5 witness expected sanitizer result. -/
def w5Result : Str := "x\n───────────Z".toList

/-- C8 counterexample stdout: a separator line before the anchor (so the
guard resets the end position) and another separator line after it. -/
def cx8Stdout : Str :=
  "───────────X\nTerraform will perform the following actions:\n───────────Y\ntail".toList

/-- First sanitization of `cx8Stdout`. -/
def cx8Once : Str :=
  "Terraform will perform the following actions:\n───────────Y\ntail".toList

/-- Second sanitization of `cx8Stdout` (strictly shorter). -/
def cx8Twice : Str :=
  "Terraform will perform the following actions:\n───────────Y".toList

/-- C8 witness stdout: the no-changes anchor with a trailing remark. -/
def w8Stdout : Str :=
  "No changes. Your infrastructure matches the configuration. ok".toList

/-- C1 witness stdout. -/
def w1Stdout : Str := "hello".toList

/-- C1 witness stderr. -/
def w1Stderr : Str := "err text".toList

/-! Helper lemmas on the string primitives. -/

theorem leadsWith_length {p s : Str} (h : leadsWith p s = true) : p.length ≤ s.length := by
  induction p generalizing s with
  | nil => simp
  | cons a p ih =>
    cases s with
    | nil => simp [leadsWith] at h
    | cons b t =>
      simp only [leadsWith, Bool.and_eq_true] at h
      simpa using ih h.2

theorem leadsWith_self_append (p v : Str) : leadsWith p (p ++ v) = true := by
  induction p with
  | nil => rfl
  | cons a p ih => simp [leadsWith, ih]

theorem leadsWith_iff_append {p s : Str} : leadsWith p s = true ↔ ∃ v, p ++ v = s := by
  constructor
  · intro h
    induction p generalizing s with
    | nil => exact ⟨s, rfl⟩
    | cons a p ih =>
      cases s with
      | nil => simp [leadsWith] at h
      | cons b t =>
        simp only [leadsWith, Bool.and_eq_true, decide_eq_true_eq] at h
        obtain ⟨v, hv⟩ := ih h.2
        exact ⟨v, by simp [h.1, hv]⟩
  · rintro ⟨v, rfl⟩
    exact leadsWith_self_append p v

theorem leadsWith_of_take {p s : Str} {n : Nat} (h : leadsWith p (s.take n) = true) :
    leadsWith p s = true := by
  induction p generalizing s n with
  | nil => rfl
  | cons a p ih =>
    cases s with
    | nil => simpa using h
    | cons b t =>
      cases n with
      | zero => simp [leadsWith] at h
      | succ n =>
        simp only [List.take_succ_cons, leadsWith, Bool.and_eq_true] at h ⊢
        exact ⟨h.1, ih h.2⟩

theorem leadsWith_take {p s : Str} {n : Nat} (h : leadsWith p s = true)
    (hn : p.length ≤ n) : leadsWith p (s.take n) = true := by
  induction p generalizing s n with
  | nil => rfl
  | cons a p ih =>
    cases s with
    | nil => simp [leadsWith] at h
    | cons b t =>
      cases n with
      | zero => simp at hn
      | succ n =>
        simp only [leadsWith, Bool.and_eq_true] at h
        simp only [List.take_succ_cons, leadsWith, Bool.and_eq_true]
        exact ⟨h.1, ih h.2 (by simpa using hn)⟩

theorem goIndex_of_leads {s sub : Str} (h : leadsWith sub s = true) :
    goIndex s sub = some 0 := by
  unfold goIndex
  simp [h]

theorem goIndex_some {s sub : Str} {i : Nat} (h : goIndex s sub = some i) :
    leadsWith sub (s.drop i) = true ∧ i ≤ s.length := by
  induction s generalizing i with
  | nil =>
    unfold goIndex at h
    by_cases hl : leadsWith sub [] = true
    · simp [hl] at h
      simp [← h, hl]
    · simp [hl] at h
  | cons c t ih =>
    unfold goIndex at h
    by_cases hl : leadsWith sub (c :: t) = true
    · simp [hl] at h
      simp [← h, hl]
    · rw [if_neg hl, Option.map_eq_some'] at h
      obtain ⟨j, hj, hji⟩ := h
      obtain ⟨h1, h2⟩ := ih hj
      subst hji
      exact ⟨by simpa using h1, by simpa using h2⟩

theorem goIndex_none_all {s sub : Str} (h : goIndex s sub = none) (i : Nat) :
    leadsWith sub (s.drop i) = false := by
  induction s generalizing i with
  | nil =>
    unfold goIndex at h
    by_cases hl : leadsWith sub [] = true
    · simp [hl] at h
    · simpa [List.drop_nil] using (Bool.not_eq_true _).mp hl
  | cons c t ih =>
    unfold goIndex at h
    by_cases hl : leadsWith sub (c :: t) = true
    · simp [hl] at h
    · rw [if_neg hl] at h
      have h' : goIndex t sub = none := by
        cases hg : goIndex t sub with
        | none => rfl
        | some j => simp [hg] at h
      cases i with
      | zero => simpa using (Bool.not_eq_true _).mp hl
      | succ i => simpa using ih h' i

theorem goIndex_getD_le (s sub : Str) : (goIndex s sub).getD 0 ≤ s.length := by
  cases h : goIndex s sub with
  | none => simp
  | some i => simpa using (goIndex_some h).2

theorem goLastIndex_some {s sub : Str} {k : Nat} (h : goLastIndex s sub = some k) :
    leadsWith sub (s.drop k) = true ∧ k ≤ s.length := by
  induction s generalizing k with
  | nil =>
    unfold goLastIndex at h
    by_cases hl : leadsWith sub [] = true
    · simp [hl] at h
      simp [← h, hl]
    · simp [hl] at h
  | cons c t ih =>
    unfold goLastIndex at h
    cases ht : goLastIndex t sub with
    | some j =>
      rw [ht] at h
      simp only [Option.some.injEq] at h
      obtain ⟨h1, h2⟩ := ih ht
      subst h
      exact ⟨by simpa using h1, by simpa using h2⟩
    | none =>
      rw [ht] at h
      by_cases hl : leadsWith sub (c :: t) = true
      · simp [hl] at h
        simp [← h, hl]
      · simp [hl] at h

theorem goLastIndex_none_all {s sub : Str} (h : goLastIndex s sub = none) (i : Nat) :
    leadsWith sub (s.drop i) = false := by
  induction s generalizing i with
  | nil =>
    unfold goLastIndex at h
    by_cases hl : leadsWith sub [] = true
    · simp [hl] at h
    · simpa [List.drop_nil] using (Bool.not_eq_true _).mp hl
  | cons c t ih =>
    unfold goLastIndex at h
    cases ht : goLastIndex t sub with
    | some j => simp [ht] at h
    | none =>
      rw [ht] at h
      by_cases hl : leadsWith sub (c :: t) = true
      · simp [hl] at h
      · cases i with
        | zero => simpa using (Bool.not_eq_true _).mp hl
        | succ i => simpa using ih ht i

theorem subStr_goLastIndex {m s : Str} (h : subStr m s) :
    ∃ k, goLastIndex s m = some k ∧ k + m.length ≤ s.length := by
  obtain ⟨u, v, rfl⟩ := h
  cases hg : goLastIndex (u ++ (m ++ v)) m with
  | none =>
    have := goLastIndex_none_all hg u.length
    rw [List.drop_left] at this
    rw [leadsWith_self_append] at this
    exact absurd this (by simp)
  | some k =>
    obtain ⟨h1, h2⟩ := goLastIndex_some hg
    refine ⟨k, rfl, ?_⟩
    have := leadsWith_length h1
    rw [List.length_drop] at this
    omega

theorem subStr_refl (s : Str) : subStr s s := ⟨[], [], by simp⟩

theorem subStr_slice (s : Str) {b e : Nat} (hbe : b ≤ e) :
    subStr ((s.take e).drop b) s := by
  refine ⟨s.take b, s.drop e, ?_⟩
  have h1 : s.take b ++ (s.take e).drop b = s.take e := by
    have h2 : (s.take e).take b = s.take b := by
      rw [List.take_take, Nat.min_eq_left hbe]
    calc s.take b ++ (s.take e).drop b
        = (s.take e).take b ++ (s.take e).drop b := by rw [h2]
      _ = s.take e := List.take_append_drop _ _
  calc s.take b ++ ((s.take e).drop b ++ s.drop e)
      = (s.take b ++ (s.take e).drop b) ++ s.drop e := by rw [List.append_assoc]
    _ = s.take e ++ s.drop e := by rw [h1]
    _ = s := List.take_append_drop _ _

/-! Sanitizer lemmas. -/

theorem cleanup_err (ne : Bool) (e : GoError) (so se : Str)
    (m : Option (Str → Option Str)) :
    cleanupTerraformOutput? ne (some e) so se m =
      some (if se ≠ [] then se else if trimInit so ≠ [] then trimInit so else []) := rfl

theorem cleanup_nonerr_eq (ne : Bool) (so se : Str) (m : Option (Str → Option Str))
    (h1 : (cleanupStart ne (trimInit so) : Int) ≤ cleanupEnd ne (trimInit so) m)
    (h2 : cleanupEnd ne (trimInit so) m ≤ ((trimInit so).length : Int)) :
    cleanupTerraformOutput? ne none so se m =
      some (((trimInit so).take (cleanupEnd ne (trimInit so) m).toNat).drop
        (cleanupStart ne (trimInit so))) := by
  show (if (cleanupStart ne (trimInit so) : Int) ≤ cleanupEnd ne (trimInit so) m ∧
      cleanupEnd ne (trimInit so) m ≤ ((trimInit so).length : Int) then
      some (((trimInit so).take (cleanupEnd ne (trimInit so) m).toNat).drop
        (cleanupStart ne (trimInit so)))
    else none) = _
  rw [if_pos ⟨h1, h2⟩]

theorem cleanupEndRaw_le (s : Str) (m : Option (Str → Option Str))
    (hm : ∀ f, m = some f → ∀ mm, f s = some mm → subStr mm s) :
    cleanupEndRaw s m ≤ (s.length : Int) := by
  cases m with
  | none => simp [cleanupEndRaw]
  | some f =>
    cases hf : f s with
    | none => simp [cleanupEndRaw, hf]
    | some mm =>
      obtain ⟨k, hk, hkl⟩ := subStr_goLastIndex (hm f rfl mm hf)
      simp only [cleanupEndRaw, hf, hk]
      omega

theorem cleanupStart_le_len (ne : Bool) (s : Str) :
    cleanupStart ne s ≤ s.length := goIndex_getD_le s (anchorFor ne)

theorem cleanupStart_le_end (ne : Bool) (s : Str) (m : Option (Str → Option Str)) :
    (cleanupStart ne s : Int) ≤ cleanupEnd ne s m := by
  unfold cleanupEnd
  have hs := cleanupStart_le_len ne s
  split
  · omega
  · omega

theorem cleanupEnd_le_len (ne : Bool) (s : Str) (m : Option (Str → Option Str))
    (hraw : cleanupEndRaw s m ≤ (s.length : Int)) :
    cleanupEnd ne s m ≤ (s.length : Int) := by
  unfold cleanupEnd
  split
  · omega
  · exact hraw

/-- The sanitizer's total-safety core: under the regex contract (a match of
`s` is a substring of `s`) the slice bounds always hold. -/
theorem cleanup_nonerr_some (ne : Bool) (so se : Str) (m : Option (Str → Option Str))
    (hm : ∀ f, m = some f → ∀ s mm, f s = some mm → subStr mm s) :
    cleanupTerraformOutput? ne none so se m =
      some (((trimInit so).take (cleanupEnd ne (trimInit so) m).toNat).drop
        (cleanupStart ne (trimInit so))) := by
  have hraw := cleanupEndRaw_le (trimInit so) m (fun f hf => hm f hf (trimInit so))
  exact cleanup_nonerr_eq ne so se m (cleanupStart_le_end ne (trimInit so) m)
    (cleanupEnd_le_len ne (trimInit so) m hraw)

/-- The start anchor can only occur at the head of a sanitizer result (or
not at all): the returned slice either begins at the anchor occurrence or
the anchor does not fit in it. -/
theorem cleanup_result_anchor (ne : Bool) (so se : Str) (m : Option (Str → Option Str))
    (r : Str) (h1 : cleanupTerraformOutput? ne none so se m = some r) :
    goIndex r (anchorFor ne) = none ∨ goIndex r (anchorFor ne) = some 0 := by
  have hsplit : (if (cleanupStart ne (trimInit so) : Int) ≤ cleanupEnd ne (trimInit so) m ∧
      cleanupEnd ne (trimInit so) m ≤ ((trimInit so).length : Int) then
      some (((trimInit so).take (cleanupEnd ne (trimInit so) m).toNat).drop
        (cleanupStart ne (trimInit so)))
    else (none : Option Str)) = some r := h1
  by_cases hc : (cleanupStart ne (trimInit so) : Int) ≤ cleanupEnd ne (trimInit so) m ∧
      cleanupEnd ne (trimInit so) m ≤ ((trimInit so).length : Int)
  · rw [if_pos hc] at hsplit
    have hr : ((trimInit so).take (cleanupEnd ne (trimInit so) m).toNat).drop
        (cleanupStart ne (trimInit so)) = r := by
      simpa using hsplit
    set t := trimInit so with ht
    set B := cleanupStart ne t with hB
    set E := (cleanupEnd ne t m).toNat with hE
    cases hgi : goIndex t (anchorFor ne) with
    | none =>
      left
      cases hgr : goIndex r (anchorFor ne) with
      | none => rfl
      | some j =>
        obtain ⟨hlw, _⟩ := goIndex_some hgr
        rw [← hr, List.drop_drop, List.drop_take] at hlw
        have h2 := leadsWith_of_take hlw
        rw [goIndex_none_all hgi _] at h2
        simp at h2
    | some b =>
      have hBb : B = b := by rw [hB, cleanupStart, hgi]; rfl
      obtain ⟨hlw, hble⟩ := goIndex_some hgi
      by_cases hfit : (anchorFor ne).length ≤ E - B
      · right
        have hr' : (t.drop B).take (E - B) = r := by
          rw [← hr, List.drop_take]
        have : leadsWith (anchorFor ne) r = true := by
          rw [← hr']
          exact leadsWith_take (by rw [hBb]; exact hlw) hfit
        exact goIndex_of_leads this
      · left
        have hrlen : r.length ≤ E - B := by
          rw [← hr]
          simp [List.length_drop, List.length_take]
          omega
        cases hgr : goIndex r (anchorFor ne) with
        | none => rfl
        | some j =>
          obtain ⟨hlw2, _⟩ := goIndex_some hgr
          have := leadsWith_length hlw2
          rw [List.length_drop] at this
          omega
  · rw [if_neg hc] at hsplit
    exact absurd hsplit (by simp)

/-- C1: for every input tuple, the sanitizer terminates, performs no
out-of-range access (the Go slice bounds always hold, so the embedding
returns `some`), and the result is a contiguous substring of the
marker-trimmed stdout, or the stderr string, or the empty string — even
when the anchor or pattern is absent.  The hypothesis is the contract of
`regexp.FindStringSubmatch`: a reported match is a substring of the
searched string. -/
theorem sanitizer_total_substring (ne : Bool) (perr : Option GoError) (so se : Str)
    (matcher : Option (Str → Option Str))
    (hm : ∀ f, matcher = some f → ∀ s mm, f s = some mm → subStr mm s) :
    ∃ r, cleanupTerraformOutput? ne perr so se matcher = some r ∧
      (subStr r (trimInit so) ∨ r = se ∨ r = []) := by
  cases perr with
  | some e =>
    rw [cleanup_err]
    refine ⟨_, rfl, ?_⟩
    by_cases h1 : se ≠ []
    · rw [if_pos h1]
      exact Or.inr (Or.inl rfl)
    · rw [if_neg h1]
      by_cases h2 : trimInit so ≠ []
      · rw [if_pos h2]
        exact Or.inl (subStr_refl _)
      · rw [if_neg h2]
        exact Or.inr (Or.inr rfl)
  | none =>
    rw [cleanup_nonerr_some ne so se matcher hm]
    refine ⟨_, rfl, Or.inl (subStr_slice _ ?_)⟩
    have h1 := cleanupStart_le_end ne (trimInit so) matcher
    omega

/-- Witness for C1: the safety theorem applied at a concrete input with no
trailing pattern (so its matcher-contract hypothesis holds vacuously). -/
theorem sanitizer_total_substring_w :
    ∃ r, cleanupTerraformOutput? true none w1Stdout w1Stderr none = some r ∧
      (subStr r (trimInit w1Stdout) ∨ r = w1Stderr ∨ r = []) :=
  sanitizer_total_substring true none w1Stdout w1Stderr none (fun _ hf => nomatch hf)

/-- Counterexample to C5 as stated: with two distinct separator lines the
sanitizer truncates just past the last occurrence of the *first* match
(`───────────A`), not just past the last match of the pattern
(`───────────B`). -/
theorem plan_trailing_first_match_cx :
    cleanupTerraformPlan true none cx5Stdout [] = some cx5Actual ∧
    cx5Actual ≠ cx5Claimed := by
  constructor
  · decide
  · decide

/-- C5 (amended): when the pattern matches, the sanitizer's end position
is just past the *last occurrence in stdout of the first (leftmost) match
text* — equal to "just past the last match" only when every match has the
same text.  `k` is `LastIndex(stdout, firstMatch)`. -/
theorem plan_trailing_last_occurrence (ne : Bool) (so se : Str) (f : Str → Option Str)
    (m : Str) (k : Nat) (hf : f (trimInit so) = some m)
    (hk : goLastIndex (trimInit so) m = some k)
    (hgt : (cleanupStart ne (trimInit so) : Int) < (k : Int) + (m.length : Int)) :
    cleanupTerraformOutput? ne none so se (some f) =
      some (((trimInit so).take (k + m.length)).drop (cleanupStart ne (trimInit so))) := by
  have hraw : cleanupEndRaw (trimInit so) (some f) = (k : Int) + (m.length : Int) := by
    simp only [cleanupEndRaw, hf, hk]
  have hend : cleanupEnd ne (trimInit so) (some f) = (k : Int) + (m.length : Int) := by
    unfold cleanupEnd
    rw [hraw, if_neg (by omega)]
  have hlen : k + m.length ≤ (trimInit so).length := by
    obtain ⟨hl, _⟩ := goLastIndex_some hk
    have := leadsWith_length hl
    rw [List.length_drop] at this
    omega
  have h1 : (cleanupStart ne (trimInit so) : Int) ≤ cleanupEnd ne (trimInit so) (some f) := by
    rw [hend]; omega
  have h2 : cleanupEnd ne (trimInit so) (some f) ≤ ((trimInit so).length : Int) := by
    rw [hend]; omega
  rw [cleanup_nonerr_eq ne so se (some f) h1 h2, hend]
  have : ((k : Int) + (m.length : Int)).toNat = k + m.length := by omega
  rw [this]

/-- Witness for C5's amended theorem at a concrete plan output. -/
theorem plan_trailing_last_occurrence_w :
    cleanupTerraformOutput? true none w5Stdout [] (some sepFindFirst) =
      some (((trimInit w5Stdout).take (2 + w5Match.length)).drop
        (cleanupStart true (trimInit w5Stdout))) :=
  plan_trailing_last_occurrence true w5Stdout [] sepFindFirst w5Match 2
    (by decide) (by decide) (by decide)

/-- Counterexample to C8 as stated: re-sanitizing an already-sanitized
plan output (nil error, same parameters) truncates it further, because the
first run's guard reset the end position past a later separator line. -/
theorem sanitizer_not_idempotent_cx :
    cleanupTerraformPlan true none cx8Stdout [] = some cx8Once ∧
    cleanupTerraformPlan true none cx8Once [] = some cx8Twice ∧
    cx8Twice ≠ cx8Once := by
  refine ⟨by decide, by decide, by decide⟩

/-- C8 (amended): with a nil error, re-sanitizing the result with the same
parameters returns it unchanged provided the init marker does not occur at
a positive position inside the result and the trailing pattern, if it
matches the result, matches text whose last occurrence ends exactly at the
result's end. -/
theorem sanitizer_idem_conditional (ne : Bool) (so se : Str)
    (matcher : Option (Str → Option Str)) (r : Str)
    (h1 : cleanupTerraformOutput? ne none so se matcher = some r)
    (h2 : goIndex r initMarker = none ∨ goIndex r initMarker = some 0)
    (h3 : ∀ f, matcher = some f → ∀ m, f r = some m →
      goLastIndex r m = some (r.length - m.length) ∧ m.length ≤ r.length) :
    cleanupTerraformOutput? ne none r se matcher = some r := by
  have htrim : trimInit r = r := by
    cases h2 with
    | inl h => unfold trimInit; rw [h]
    | inr h => unfold trimInit; rw [h]; rfl
  have hanchor := cleanup_result_anchor ne so se matcher r h1
  have hstart : cleanupStart ne r = 0 := by
    unfold cleanupStart
    cases hanchor with
    | inl h => rw [h]; rfl
    | inr h => rw [h]; rfl
  have hraw : cleanupEndRaw r matcher = (r.length : Int) := by
    cases matcher with
    | none => rfl
    | some f =>
      cases hf : f r with
      | none => simp [cleanupEndRaw, hf]
      | some m =>
        obtain ⟨hk, hlen⟩ := h3 f rfl m hf
        simp only [cleanupEndRaw, hf, hk]
        rw [Nat.cast_sub hlen]
        ring
  have hend : cleanupEnd ne r matcher = (r.length : Int) := by
    unfold cleanupEnd
    rw [hraw, hstart]
    split
    · rfl
    · rfl
  have hb1 : (cleanupStart ne (trimInit r) : Int) ≤ cleanupEnd ne (trimInit r) matcher := by
    rw [htrim, hstart, hend]
    omega
  have hb2 : cleanupEnd ne (trimInit r) matcher ≤ ((trimInit r).length : Int) := by
    rw [htrim, hend]
  rw [cleanup_nonerr_eq ne r se matcher hb1 hb2, htrim, hstart, hend]
  simp

/-- Witness for C8's amended theorem: a no-changes output that the
sanitizer returns whole, hence re-sanitizing keeps it fixed. -/
theorem sanitizer_idem_conditional_w :
    cleanupTerraformOutput? false none w8Stdout [] (some sepFindFirst) = some w8Stdout := by
  refine sanitizer_idem_conditional false w8Stdout [] (some sepFindFirst) w8Stdout
    (by decide) (Or.inl (by decide)) ?_
  intro f hf m hm
  injection hf with hfe
  subst hfe
  rw [(by decide : sepFindFirst w8Stdout = none)] at hm
  cases hm

/-! Path-provider lemmas. -/

theorem replaceAllChar_no_hash {ns : Str} (h : '#' ∉ ns) :
    '#' ∉ replaceAllChar ns '/' ':' := by
  intro hmem
  rw [replaceAllChar, List.mem_map] at hmem
  obtain ⟨a, ha, hfa⟩ := hmem
  by_cases hsl : a = '/'
  · simp [hsl] at hfa
  · rw [if_neg hsl] at hfa
    exact h (hfa ▸ ha)

theorem replaceAllChar_inj {ns1 ns2 : Str} (h1 : ':' ∉ ns1) (h2 : ':' ∉ ns2)
    (h : replaceAllChar ns1 '/' ':' = replaceAllChar ns2 '/' ':') : ns1 = ns2 := by
  induction ns1 generalizing ns2 with
  | nil =>
    cases ns2 with
    | nil => rfl
    | cons b t => simp [replaceAllChar] at h
  | cons a s ih =>
    cases ns2 with
    | nil => simp [replaceAllChar] at h
    | cons b t =>
      simp only [replaceAllChar, List.map_cons, List.cons.injEq] at h
      obtain ⟨hab, ht⟩ := h
      have hmem1 : ':' ∉ s := fun hx => h1 (List.mem_cons_of_mem a hx)
      have hmem2 : ':' ∉ t := fun hx => h2 (List.mem_cons_of_mem b hx)
      have hane : a ≠ ':' := fun hx => h1 (hx ▸ List.mem_cons_self a s)
      have hbne : b ≠ ':' := fun hx => h2 (hx ▸ List.mem_cons_self b t)
      have hab' : a = b := by
        by_cases hsa : a = '/'
        · by_cases hsb : b = '/'
          · rw [hsa, hsb]
          · rw [if_pos hsa, if_neg hsb] at hab
            exact absurd hab.symm hbne
        · by_cases hsb : b = '/'
          · rw [if_neg hsa, if_pos hsb] at hab
            exact absurd hab hane
          · rwa [if_neg hsa, if_neg hsb] at hab
      rw [hab', ih hmem1 hmem2 ht]

theorem hash_split {xs ys u v : Str} (hx : '#' ∉ xs) (hy : '#' ∉ ys)
    (h : xs ++ '#' :: u = ys ++ '#' :: v) : xs = ys ∧ u = v := by
  induction xs generalizing ys with
  | nil =>
    cases ys with
    | nil => simpa using h
    | cons b t =>
      simp only [List.nil_append, List.cons_append, List.cons.injEq] at h
      exact absurd (h.1 ▸ List.mem_cons_self b t) hy
  | cons a s ih =>
    cases ys with
    | nil =>
      simp only [List.nil_append, List.cons_append, List.cons.injEq] at h
      exact absurd (h.1.symm ▸ List.mem_cons_self a s) hx
    | cons b t =>
      simp only [List.cons_append, List.cons.injEq] at h
      obtain ⟨hab, ht⟩ := h
      have := ih (fun hm => hx (List.mem_cons_of_mem a hm))
        (fun hm => hy (List.mem_cons_of_mem b hm)) ht
      exact ⟨by rw [hab, this.1], this.2⟩

/-- C4 (amended): the plan file name is the namespace with `/` replaced by
`:`, then `#`, the project name and `.tfplan`; the local path and storage
key are the `path.Join` of the project path (resp. namespace) with that
file name; the mapping is injective for namespaces free of `:` and `#`
(without that proviso distinct identities can collide — see the
counterexample); and namespace `org/repo` with name `prod` yields
`org:repo#prod.tfplan`. -/
theorem planFileName_spec :
    (∀ d : ProjectPathProvider,
      d.planFileName =
        replaceAllChar d.projectNamespace '/' ':' ++ '#' :: (d.projectName ++ tfplanSuffix) ∧
      d.localPlanFilePath = goPathJoin d.projectPath d.planFileName ∧
      d.storedPlanFilePath = goPathJoin d.projectNamespace d.planFileName) ∧
    (∀ p1 p2 ns1 n1 ns2 n2 : Str, ':' ∉ ns1 → ':' ∉ ns2 → '#' ∉ ns1 → '#' ∉ ns2 →
      (ProjectPathProvider.mk p1 ns1 n1).planFileName =
        (ProjectPathProvider.mk p2 ns2 n2).planFileName → ns1 = ns2 ∧ n1 = n2) ∧
    (ProjectPathProvider.mk cxPp orgRepoNs prodName).planFileName = orgRepoFile := by
  refine ⟨fun d => ⟨rfl, rfl, rfl⟩, ?_, by decide⟩
  intro p1 p2 ns1 n1 ns2 n2 hc1 hc2 hh1 hh2 heq
  have heq' : replaceAllChar ns1 '/' ':' ++ '#' :: (n1 ++ tfplanSuffix) =
      replaceAllChar ns2 '/' ':' ++ '#' :: (n2 ++ tfplanSuffix) := heq
  obtain ⟨hns, hn⟩ :=
    hash_split (replaceAllChar_no_hash hh1) (replaceAllChar_no_hash hh2) heq'
  refine ⟨replaceAllChar_inj hc1 hc2 hns, ?_⟩
  exact List.append_cancel_right hn

/-- Witness for C4's amended theorem: the injectivity clause applied at a
concrete identity. -/
theorem planFileName_spec_w : wNsA = wNsA ∧ wNameB = wNameB :=
  planFileName_spec.2.1 cxPp cxPp wNsA wNameB wNsA wNameB
    (by decide) (by decide) (by decide) (by decide) rfl

/-- Counterexample to C4 as stated: the distinct namespaces `a/b` and
`a:b` (same name, same project path) yield the same plan file name and the
same local plan file path. -/
theorem planFileName_collision_cx :
    (ProjectPathProvider.mk cxPp cxNsSlash cxNameC).planFileName =
      (ProjectPathProvider.mk cxPp cxNsColon cxNameC).planFileName ∧
    (ProjectPathProvider.mk cxPp cxNsSlash cxNameC).localPlanFilePath =
      (ProjectPathProvider.mk cxPp cxNsColon cxNameC).localPlanFilePath ∧
    cxNsSlash ≠ cxNsColon := by
  refine ⟨by decide, by decide, by decide⟩

/-- C2: for every wrapped executor result and project lock — when `Lock()`
reports not-acquired with no error, `Plan` returns `(false, "", nil)` and
`Apply` returns `(false, nil)` without invoking the wrapped executor (the
trailing boolean instruments delegation); when `Lock()` errors, a wrapped
error is returned and the wrapped executor is not invoked; when the lock
is acquired, the wrapped executor's result is propagated unchanged. -/
theorem locking_skip_policy :
    ∀ (pr : Bool × Str × Option GoError) (ar : Bool × Option GoError)
      (ur : Option GoError) (lid : Str) (e : GoError) (acq : Bool),
    LockingExecutorWrapper.planExec ⟨⟨(false, none), ur, lid⟩, pr, ar⟩ =
      ((false, [], none), false) ∧
    LockingExecutorWrapper.applyExec ⟨⟨(false, none), ur, lid⟩, pr, ar⟩ =
      ((false, none), false) ∧
    LockingExecutorWrapper.planExec ⟨⟨(acq, some e), ur, lid⟩, pr, ar⟩ =
      ((false, [], some (errLockingProject e)), false) ∧
    LockingExecutorWrapper.applyExec ⟨⟨(acq, some e), ur, lid⟩, pr, ar⟩ =
      ((false, some (errLockingProject e)), false) ∧
    LockingExecutorWrapper.planExec ⟨⟨(true, none), ur, lid⟩, pr, ar⟩ = (pr, true) ∧
    LockingExecutorWrapper.applyExec ⟨⟨(true, none), ur, lid⟩, pr, ar⟩ = (ar, true) :=
  fun _ _ _ _ _ _ => ⟨rfl, rfl, rfl, rfl, rfl, rfl⟩

/-- C9: the decorator's `Lock()` discards the acquired boolean — it
returns `nil` whenever the underlying lock reports no error, and its
result cannot distinguish acquisition from contention. -/
theorem lock_discards_acquired :
    ∀ (pr : Bool × Str × Option GoError) (ar : Bool × Option GoError)
      (ur : Option GoError) (lid : Str) (acq : Bool),
    LockingExecutorWrapper.lockOnly ⟨⟨(acq, none), ur, lid⟩, pr, ar⟩ = none ∧
    LockingExecutorWrapper.lockOnly ⟨⟨(true, none), ur, lid⟩, pr, ar⟩ =
      LockingExecutorWrapper.lockOnly ⟨⟨(false, none), ur, lid⟩, pr, ar⟩ :=
  fun _ _ _ _ _ => ⟨rfl, rfl⟩

/-! Executor lemmas. -/

theorem reportsOf_append (a b : List Event) :
    reportsOf (a ++ b) = reportsOf a ++ reportsOf b := by
  induction a with
  | nil => rfl
  | cons e t ih => cases e <;> simp [reportsOf, ih]

theorem sanitizesOf_append (a b : List Event) :
    sanitizesOf (a ++ b) = sanitizesOf a ++ sanitizesOf b := by
  induction a with
  | nil => rfl
  | cons e t ih => cases e <;> simp [sanitizesOf, ih]

theorem execApplyStep_pre (d : DiggerExecutor) (env : Str → Str) (pf : Option Str)
    (s : Step) (h : preApplyOk d env s) :
    ∃ evs, execApplyStep d env pf s = some (none, evs) ∧ reportsOf evs = [] := by
  obtain ⟨hna, hinit, hrun⟩ := h
  by_cases h1 : s.action = actionInit
  · refine ⟨[.initCall s.extraArgs], ?_, rfl⟩
    unfold execApplyStep
    rw [if_pos h1, hinit h1]
  · by_cases h3 : s.action = actionRun
    · refine ⟨[.runCall d.projectPath s.shell (runCommands env d.projectPath s)], ?_, rfl⟩
      unfold execApplyStep
      rw [if_neg h1, if_neg hna, if_pos h3, hrun h3]
    · refine ⟨[], ?_, rfl⟩
      unfold execApplyStep
      rw [if_neg h1, if_neg hna, if_neg h3]

theorem execApplySteps_pre (d : DiggerExecutor) (env : Str → Str) (pf : Option Str)
    (pre rest : List Step) (h : ∀ s ∈ pre, preApplyOk d env s) :
    ∃ evs0, reportsOf evs0 = [] ∧
      execApplySteps d env pf (pre ++ rest) =
        (execApplySteps d env pf rest).map (fun re => (re.1, evs0 ++ re.2)) := by
  induction pre with
  | nil =>
    refine ⟨[], rfl, ?_⟩
    cases hr : execApplySteps d env pf rest <;> simp [hr]
  | cons s t ih =>
    obtain ⟨evs1, hstep1, hrep1⟩ := execApplyStep_pre d env pf s (h s (List.mem_cons_self s t))
    obtain ⟨evs0, hev0, hrec⟩ := ih (fun x hx => h x (List.mem_cons_of_mem s hx))
    refine ⟨evs1 ++ evs0, by rw [reportsOf_append, hrep1, hev0]; rfl, ?_⟩
    show execApplySteps d env pf (s :: (t ++ rest)) = _
    simp only [execApplySteps]
    rw [hstep1, hrec]
    cases hr : execApplySteps d env pf rest with
    | none => rfl
    | some re => simp [List.append_assoc]

/-- C3: for every apply stage whose apply step's tool invocation errors
(preceded by non-apply steps that complete without reporting), `Apply`
issues exactly two reports — first the sanitized apply output, then the
distinct "Error during applying." message — and returns
`(false, wrapped error)`; the reporter's own results (quantified inside
`d`) never influence the returned result. -/
theorem apply_failure_two_reports (d : DiggerExecutor) (env : Str → Str)
    (pre post : List Step) (step : Step) (so se : Str) (e : GoError)
    (hstage : d.applyStage = some ⟨pre ++ step :: post⟩)
    (hact : step.action = actionApply)
    (hpre : ∀ s ∈ pre, preApplyOk d env s)
    (hstore : d.planStorage = none)
    (happly : d.terraformExecutor.applyOp step.extraArgs none d.commandEnvVars =
      (so, se, some e)) :
    ∃ out evs, cleanupTerraformApply true (some e) so se = some out ∧
      d.applyExec env = some ((false, some (errExecutingApply e)), evs) ∧
      reportsOf evs =
        [(out, GetTerraformOutputAsCollapsibleComment (applyCommentLabel d)),
          (e, AsCollapsibleComment errorApplyingLabel)] := by
  have hclean : cleanupTerraformApply true (some e) so se =
      some (if se ≠ [] then se else if trimInit so ≠ [] then trimInit so else []) :=
    cleanup_err true e so se none
  have hna1 : ¬step.action = actionInit := by rw [hact]; decide
  have hstep : execApplyStep d env none step =
      some (some (false, some (errExecutingApply e)),
        [Event.applyCall step.extraArgs none,
          Event.sanitizeCall true (some e) so se,
          Event.reportCall
            (if se ≠ [] then se else if trimInit so ≠ [] then trimInit so else [])
            (GetTerraformOutputAsCollapsibleComment (applyCommentLabel d)),
          Event.reportCall e (AsCollapsibleComment errorApplyingLabel)]) := by
    unfold execApplyStep
    rw [if_neg hna1, if_pos hact, happly]
    dsimp only
    rw [hclean]
  obtain ⟨evs0, hev0, hpre'⟩ := execApplySteps_pre d env none pre (step :: post) hpre
  have hloop : execApplySteps d env none (step :: post) =
      some ((false, some (errExecutingApply e)),
        [Event.applyCall step.extraArgs none,
          Event.sanitizeCall true (some e) so se,
          Event.reportCall
            (if se ≠ [] then se else if trimInit so ≠ [] then trimInit so else [])
            (GetTerraformOutputAsCollapsibleComment (applyCommentLabel d)),
          Event.reportCall e (AsCollapsibleComment errorApplyingLabel)]) := by
    simp only [execApplySteps]
    rw [hstep]
  have hsteps : applyStepsOf d = pre ++ step :: post := by
    unfold applyStepsOf
    rw [hstage]
  have hexec : d.applyExec env = execApplySteps d env none (applyStepsOf d) := by
    unfold DiggerExecutor.applyExec
    rw [hstore]
  refine ⟨_, evs0 ++ [Event.applyCall step.extraArgs none,
      Event.sanitizeCall true (some e) so se,
      Event.reportCall
        (if se ≠ [] then se else if trimInit so ≠ [] then trimInit so else [])
        (GetTerraformOutputAsCollapsibleComment (applyCommentLabel d)),
      Event.reportCall e (AsCollapsibleComment errorApplyingLabel)], hclean, ?_, ?_⟩
  · rw [hexec, hsteps, hpre', hloop]
    rfl
  · rw [reportsOf_append, hev0]
    rfl

/-- Witness for C3: the two-report theorem applied to a concrete executor
whose single-step apply stage fails. -/
theorem apply_failure_two_reports_w :
    ∃ out evs, cleanupTerraformApply true (some cxOops) cxOut cxBoom = some out ∧
      d3.applyExec envEmpty = some ((false, some (errExecutingApply cxOops)), evs) ∧
      reportsOf evs =
        [(out, GetTerraformOutputAsCollapsibleComment (applyCommentLabel d3)),
          (cxOops, AsCollapsibleComment errorApplyingLabel)] :=
  apply_failure_two_reports d3 envEmpty [] [] applyStep0 cxOut cxBoom cxOops
    rfl rfl (by simp) rfl rfl

theorem execPlanDelete_sanitizes (ps : PlanStorage) (stored : Str) (pe : Bool) :
    sanitizesOf (execPlanDelete ps stored pe).2 = [] := by
  unfold execPlanDelete
  repeat' split
  all_goals rfl

theorem execPlanStorage_sanitizes (d : DiggerExecutor) :
    sanitizesOf (execPlanStorage d).2 = [] := by
  unfold execPlanStorage
  cases hps : d.planStorage with
  | none => rfl
  | some ps =>
    dsimp only
    rcases hpe : ps.planExists d.planPathProvider.storedPlanFilePath with ⟨pe, perr⟩
    cases perr with
    | some e => rfl
    | none =>
      dsimp only
      rcases hd : execPlanDelete ps d.planPathProvider.storedPlanFilePath pe with ⟨od, evsd⟩
      have hde : sanitizesOf evsd = [] := by
        have h1 := execPlanDelete_sanitizes ps d.planPathProvider.storedPlanFilePath pe
        rw [hd] at h1
        exact h1
      cases od with
      | some r =>
        dsimp only
        show sanitizesOf evsd = []
        exact hde
      | none =>
        dsimp only
        cases hsp : ps.storePlan d.planPathProvider.localPlanFilePath
            d.planPathProvider.storedPlanFilePath with
        | some e =>
          show sanitizesOf (evsd ++ [Event.storePlanCall d.planPathProvider.localPlanFilePath
            d.planPathProvider.storedPlanFilePath]) = []
          rw [sanitizesOf_append, hde]
          rfl
        | none =>
          show sanitizesOf (evsd ++ [Event.storePlanCall d.planPathProvider.localPlanFilePath
            d.planPathProvider.storedPlanFilePath]) = []
          rw [sanitizesOf_append, hde]
          rfl

theorem execPlanStep_sanitize (d : DiggerExecutor) (env : Str → Str) (s : Step)
    (acc : Str) (out : Option (Bool × Str × Option GoError)) (acc' : Str)
    (evs : List Event) (h : execPlanStep d env s acc = some (out, acc', evs)) :
    ∀ x ∈ sanitizesOf evs, x.2.1 = (none : Option GoError) := by
  unfold execPlanStep at h
  by_cases h1 : s.action = actionInit
  · rw [if_pos h1] at h
    cases hi : (d.terraformExecutor.init s.extraArgs d.stateEnvVars).2.2 <;>
        rw [hi] at h <;>
      · simp only [Option.some.injEq, Prod.mk.injEq] at h
        obtain ⟨-, -, h3⟩ := h
        subst h3
        intro x hx
        simp [sanitizesOf] at hx
  · rw [if_neg h1] at h
    by_cases h2 : s.action = actionPlan
    · rw [if_pos h2] at h
      rcases hp : d.terraformExecutor.plan (planArgsOf d s) d.commandEnvVars with
        ⟨ne1, so1, se1, err1⟩
      rw [hp] at h
      dsimp only at h
      cases err1 with
      | some e =>
        simp only [Option.some.injEq, Prod.mk.injEq] at h
        obtain ⟨-, -, h3⟩ := h
        subst h3
        intro x hx
        simp [sanitizesOf] at hx
      | none =>
        rcases hst : execPlanStorage d with ⟨outS, evsS⟩
        rw [hst] at h
        have hsan : sanitizesOf evsS = [] := by
          have h4 := execPlanStorage_sanitizes d
          rw [hst] at h4
          exact h4
        cases outS with
        | some r =>
          dsimp only at h
          simp only [Option.some.injEq, Prod.mk.injEq] at h
          obtain ⟨-, -, h3⟩ := h
          subst h3
          intro x hx
          have hx' : x ∈ sanitizesOf evsS := hx
          rw [hsan] at hx'
          simp at hx'
        | none =>
          cases hc : cleanupTerraformPlan ne1 none so1 se1 with
          | none =>
            rw [hc] at h
            exact absurd h (by simp)
          | some p' =>
            rw [hc] at h
            simp only [Option.some.injEq, Prod.mk.injEq] at h
            obtain ⟨-, -, h3⟩ := h
            subst h3
            intro x hx
            have hx' : x ∈ sanitizesOf (evsS ++ [Event.sanitizeCall ne1 none so1 se1]) := hx
            rw [sanitizesOf_append, hsan] at hx'
            simp [sanitizesOf] at hx'
            rw [hx']
    · rw [if_neg h2] at h
      by_cases h3 : s.action = actionRun
      · rw [if_pos h3] at h
        cases hr : (d.commandRunner.run d.projectPath s.shell
            (runCommands env (env githubWorkspaceKey) s)).2.2 <;>
            rw [hr] at h <;>
          · simp only [Option.some.injEq, Prod.mk.injEq] at h
            obtain ⟨-, -, h4⟩ := h
            subst h4
            intro x hx
            simp [sanitizesOf] at hx
      · rw [if_neg h3] at h
        simp only [Option.some.injEq, Prod.mk.injEq] at h
        obtain ⟨-, -, h4⟩ := h
        subst h4
        intro x hx
        simp [sanitizesOf] at hx

theorem execPlanSteps_sanitize (d : DiggerExecutor) (env : Str → Str)
    (steps : List Step) :
    ∀ acc r evs, execPlanSteps d env steps acc = some (r, evs) →
      ∀ x ∈ sanitizesOf evs, x.2.1 = (none : Option GoError) := by
  induction steps with
  | nil =>
    intro acc r evs h x hx
    simp only [execPlanSteps, Option.some.injEq, Prod.mk.injEq] at h
    obtain ⟨-, h2⟩ := h
    subst h2
    simp [sanitizesOf] at hx
  | cons s t ih =>
    intro acc r evs h x hx
    simp only [execPlanSteps] at h
    cases hs : execPlanStep d env s acc with
    | none => rw [hs] at h; exact absurd h (by simp)
    | some o =>
      rcases o with ⟨o1, acc1, evs1⟩
      rw [hs] at h
      cases o1 with
      | some r1 =>
        dsimp only at h
        simp only [Option.some.injEq, Prod.mk.injEq] at h
        obtain ⟨-, h2⟩ := h
        subst h2
        exact execPlanStep_sanitize d env s acc _ _ _ hs x hx
      | none =>
        dsimp only at h
        cases ht : execPlanSteps d env t acc1 with
        | none => rw [ht] at h; exact absurd h (by simp)
        | some re =>
          rcases re with ⟨r2, evs2⟩
          rw [ht] at h
          simp only [Option.some.injEq, Prod.mk.injEq] at h
          obtain ⟨-, h2⟩ := h
          subst h2
          rw [sanitizesOf_append] at hx
          rcases List.mem_append.mp hx with hx1 | hx2
          · exact execPlanStep_sanitize d env s acc _ _ _ hs x hx1
          · exact ih acc1 r2 evs2 ht x hx2

/-- Counterexample to C6 as stated: when the plan invocation errors, `Plan`
returns immediately with the wrapped error and empty plan text; its trace
holds only the plan call — the sanitizer is never invoked (no sanitize
event), so it cannot have "returned the raw stderr" (`boom`). -/
theorem plan_error_no_sanitize_cx :
    d6.planExec envEmpty =
      some ((false, [], some (errExecutingPlan cxOops)),
        [Event.planCall (planArgsOf d6 planStep0)]) ∧
    sanitizesOf [Event.planCall (planArgsOf d6 planStep0)] = [] ∧
    cxBoom ≠ [] := by
  refine ⟨rfl, rfl, by decide⟩

/-- C6 (amended): a plan-producing error short-circuits sanitization — the
sanitizer is invoked in `Plan` only with a nil error, and a failing plan
step aborts immediately with the wrapped error, its trace free of sanitize
events. -/
theorem plan_error_short_circuit :
    (∀ (d : DiggerExecutor) (env : Str → Str) (steps : List Step) (acc : Str)
      (r : Bool × Str × Option GoError) (evs : List Event),
      execPlanSteps d env steps acc = some (r, evs) →
      ∀ x ∈ sanitizesOf evs, x.2.1 = (none : Option GoError)) ∧
    (∀ (d : DiggerExecutor) (env : Str → Str) (step : Step) (b : Bool) (so se : Str)
      (e : GoError), d.planStage = some ⟨[step]⟩ → step.action = actionPlan →
      d.terraformExecutor.plan (planArgsOf d step) d.commandEnvVars = (b, so, se, some e) →
      d.planExec env = some ((false, [], some (errExecutingPlan e)),
        [Event.planCall (planArgsOf d step)])) := by
  constructor
  · intro d env steps acc r evs h
    exact execPlanSteps_sanitize d env steps acc r evs h
  · intro d env step b so se e hp hact horacle
    have h1 : ¬step.action = actionInit := by rw [hact]; decide
    have hstep : execPlanStep d env step [] =
        some (some (false, [], some (errExecutingPlan e)), [],
          [Event.planCall (planArgsOf d step)]) := by
      unfold execPlanStep
      rw [if_neg h1, if_pos hact, horacle]
    have hsteps : planStepsOf d = [step] := by
      unfold planStepsOf
      rw [hp]
    unfold DiggerExecutor.planExec
    rw [hsteps]
    simp only [execPlanSteps]
    rw [hstep]

/-- Witness for C6's amended theorem: a successful plan step's sanitize
event in a concrete trace indeed carries a nil error. -/
theorem plan_error_short_circuit_w :
    ((true, (none : Option GoError), cxOut, cxBoom) :
      Bool × Option GoError × Str × Str).2.1 = none :=
  plan_error_short_circuit.1 d6w envEmpty [planStep0] [] (true, cxOut, none)
    [Event.planCall (planArgsOf d6w planStep0), Event.sanitizeCall true none cxOut cxBoom]
    rfl (true, none, cxOut, cxBoom) (by decide)

/-- Counterexample to C7 as stated: with the venv flag on, workspace root
`ws` and project path `pp`, the run step's command list built by `Plan`
references `ws` while the one built by `Apply` references `pp` — not the
same activation command. -/
theorem run_step_venv_path_cx :
    d7.planExec env7 = some ((true, [], none),
      [Event.runCall cxPp cxShell (runCommands env7 cxWs runStep0)]) ∧
    d7.applyExec env7 = some ((true, none),
      [Event.runCall cxPp cxShell (runCommands env7 cxPp runStep0)]) ∧
    runCommands env7 cxWs runStep0 ≠ runCommands env7 cxPp runStep0 := by
  refine ⟨rfl, rfl, by decide⟩

/-- C7 (amended): `Plan` and `Apply` handle a `run` step identically —
same working directory, same shell, same abort-with-wrapped-error policy —
except for the base path of the venv activation command: `Plan` uses the
`GITHUB_WORKSPACE` environment variable while `Apply` uses the project
path; the command lists coincide whenever the two paths agree (in
particular when the venv flag is off). -/
theorem run_step_plan_apply (d : DiggerExecutor) (env : Str → Str) (step : Step)
    (hrun : step.action = actionRun)
    (hplan : d.planStage = some ⟨[step]⟩)
    (happ : d.applyStage = some ⟨[step]⟩)
    (hstore : d.planStorage = none) :
    ∃ rP rA,
      d.planExec env = some (rP, [Event.runCall d.projectPath step.shell
        (runCommands env (env githubWorkspaceKey) step)]) ∧
      d.applyExec env = some (rA, [Event.runCall d.projectPath step.shell
        (runCommands env d.projectPath step)]) ∧
      (env githubWorkspaceKey = d.projectPath →
        runCommands env (env githubWorkspaceKey) step = runCommands env d.projectPath step) ∧
      (∀ e, (d.commandRunner.run d.projectPath step.shell
          (runCommands env (env githubWorkspaceKey) step)).2.2 = some e →
        rP = (false, [], some (errRunningCommand e))) ∧
      ((d.commandRunner.run d.projectPath step.shell
          (runCommands env (env githubWorkspaceKey) step)).2.2 = none →
        rP = (true, [], none)) ∧
      (∀ e, (d.commandRunner.run d.projectPath step.shell
          (runCommands env d.projectPath step)).2.2 = some e →
        rA = (false, some (errRunningCommand e))) ∧
      ((d.commandRunner.run d.projectPath step.shell
          (runCommands env d.projectPath step)).2.2 = none →
        rA = (true, none)) := by
  have h1 : ¬step.action = actionInit := by rw [hrun]; decide
  have h2 : ¬step.action = actionPlan := by rw [hrun]; decide
  have h4 : ¬step.action = actionApply := by rw [hrun]; decide
  have hpsteps : planStepsOf d = [step] := by
    unfold planStepsOf; rw [hplan]
  have hasteps : applyStepsOf d = [step] := by
    unfold applyStepsOf; rw [happ]
  have hpe : d.planExec env = execPlanSteps d env [step] [] := by
    unfold DiggerExecutor.planExec; rw [hpsteps]
  have hae : d.applyExec env = execApplySteps d env none [step] := by
    unfold DiggerExecutor.applyExec; rw [hstore, hasteps]
  cases hrP : (d.commandRunner.run d.projectPath step.shell
      (runCommands env (env githubWorkspaceKey) step)).2.2 with
  | some e =>
    cases hrA : (d.commandRunner.run d.projectPath step.shell
        (runCommands env d.projectPath step)).2.2 with
    | some e2 =>
      refine ⟨(false, [], some (errRunningCommand e)),
        (false, some (errRunningCommand e2)), ?_, ?_, ?_, ?_, ?_, ?_, ?_⟩
      · rw [hpe]
        simp only [execPlanSteps]
        unfold execPlanStep
        rw [if_neg h1, if_neg h2, if_pos hrun, hrP]
      · rw [hae]
        simp only [execApplySteps]
        unfold execApplyStep
        rw [if_neg h1, if_neg h4, if_pos hrun, hrA]
      · intro hgw; rw [hgw]
      · intro e' he'; injection he' with h; rw [h]
      · intro he'; cases he'
      · intro e' he'; injection he' with h; rw [h]
      · intro he'; cases he'
    | none =>
      refine ⟨(false, [], some (errRunningCommand e)), (true, none), ?_, ?_, ?_, ?_, ?_, ?_, ?_⟩
      · rw [hpe]
        simp only [execPlanSteps]
        unfold execPlanStep
        rw [if_neg h1, if_neg h2, if_pos hrun, hrP]
      · rw [hae]
        simp only [execApplySteps]
        unfold execApplyStep
        rw [if_neg h1, if_neg h4, if_pos hrun, hrA]
        simp
      · intro hgw; rw [hgw]
      · intro e' he'; injection he' with h; rw [h]
      · intro he'; cases he'
      · intro e' he'; cases he'
      · intro _; rfl
  | none =>
    cases hrA : (d.commandRunner.run d.projectPath step.shell
        (runCommands env d.projectPath step)).2.2 with
    | some e2 =>
      refine ⟨(true, [], none), (false, some (errRunningCommand e2)), ?_, ?_, ?_, ?_, ?_, ?_, ?_⟩
      · rw [hpe]
        simp only [execPlanSteps]
        unfold execPlanStep
        rw [if_neg h1, if_neg h2, if_pos hrun, hrP]
        simp
      · rw [hae]
        simp only [execApplySteps]
        unfold execApplyStep
        rw [if_neg h1, if_neg h4, if_pos hrun, hrA]
      · intro hgw; rw [hgw]
      · intro e' he'; cases he'
      · intro _; rfl
      · intro e' he'; injection he' with h; rw [h]
      · intro he'; cases he'
    | none =>
      refine ⟨(true, [], none), (true, none), ?_, ?_, ?_, ?_, ?_, ?_, ?_⟩
      · rw [hpe]
        simp only [execPlanSteps]
        unfold execPlanStep
        rw [if_neg h1, if_neg h2, if_pos hrun, hrP]
        simp
      · rw [hae]
        simp only [execApplySteps]
        unfold execApplyStep
        rw [if_neg h1, if_neg h4, if_pos hrun, hrA]
        simp
      · intro hgw; rw [hgw]
      · intro e' he'; cases he'
      · intro _; rfl
      · intro e' he'; cases he'
      · intro _; rfl

/-- Witness for C7's amended theorem at a concrete run step: the
instantiated theorem pins the successful plan-side execution and trace. -/
theorem run_step_plan_apply_w :
    d7.planExec env7 = some ((true, [], none),
      [Event.runCall d7.projectPath runStep0.shell
        (runCommands env7 (env7 githubWorkspaceKey) runStep0)]) := by
  obtain ⟨rP, rA, h1, h2, h3, h4, h5, h6, h7⟩ :=
    run_step_plan_apply d7 env7 runStep0 rfl rfl rfl rfl
  have hp : rP = (true, [], none) := h5 rfl
  rw [← hp]
  exact h1

theorem execPlanStorage_false (d : DiggerExecutor) (r : Bool × Str × Option GoError)
    (h : (execPlanStorage d).1 = some r) : r.1 = false := by
  unfold execPlanStorage at h
  cases hps : d.planStorage with
  | none => rw [hps] at h; cases h
  | some ps =>
    rw [hps] at h
    dsimp only at h
    rcases hpe : ps.planExists d.planPathProvider.storedPlanFilePath with ⟨pe, perr⟩
    rw [hpe] at h
    cases perr with
    | some e =>
      dsimp only at h
      injection h with h'
      rw [← h']
    | none =>
      dsimp only at h
      rcases hd : execPlanDelete ps d.planPathProvider.storedPlanFilePath pe with ⟨od, evsd⟩
      rw [hd] at h
      cases od with
      | some rd =>
        dsimp only at h
        injection h with h'
        have hrd : rd.1 = false := by
          unfold execPlanDelete at hd
          by_cases hpe2 : pe = true
          · rw [if_pos hpe2] at hd
            cases hdel : ps.deleteStoredPlan d.planPathProvider.storedPlanFilePath with
            | some de =>
              rw [hdel] at hd
              simp only [Prod.mk.injEq, Option.some.injEq] at hd
              rw [← hd.1]
            | none =>
              rw [hdel] at hd
              simp only [Prod.mk.injEq] at hd
              exact absurd hd.1 (by simp)
          · rw [if_neg hpe2] at hd
            simp only [Prod.mk.injEq] at hd
            exact absurd hd.1 (by simp)
        rw [← h']
        exact hrd
      | none =>
        dsimp only at h
        cases hsp : ps.storePlan d.planPathProvider.localPlanFilePath
            d.planPathProvider.storedPlanFilePath with
        | some e =>
          rw [hsp] at h
          dsimp only at h
          injection h with h'
          rw [← h']
        | none =>
          rw [hsp] at h
          cases h

theorem execPlanStep_early_false (d : DiggerExecutor) (env : Str → Str) (s : Step)
    (acc : Str) (b : Bool) (p : Str) (er : Option GoError) (acc' : Str)
    (evs : List Event)
    (h : execPlanStep d env s acc = some (some (b, p, er), acc', evs)) : b = false := by
  unfold execPlanStep at h
  by_cases h1 : s.action = actionInit
  · rw [if_pos h1] at h
    cases hi : (d.terraformExecutor.init s.extraArgs d.stateEnvVars).2.2 <;> rw [hi] at h <;>
      simp_all
  · rw [if_neg h1] at h
    by_cases h2 : s.action = actionPlan
    · rw [if_pos h2] at h
      rcases hp : d.terraformExecutor.plan (planArgsOf d s) d.commandEnvVars with
        ⟨ne1, so1, se1, err1⟩
      rw [hp] at h
      dsimp only at h
      cases err1 with
      | some e => simp_all
      | none =>
        rcases hst : execPlanStorage d with ⟨outS, evsS⟩
        rw [hst] at h
        cases outS with
        | some r =>
          dsimp only at h
          simp only [Option.some.injEq, Prod.mk.injEq] at h
          obtain ⟨hr, -⟩ := h
          have hout : r.1 = false := execPlanStorage_false d r (by rw [hst])
          rw [hr] at hout
          exact hout
        | none =>
          cases hc : cleanupTerraformPlan ne1 none so1 se1 <;> rw [hc] at h <;> simp_all
    · rw [if_neg h2] at h
      by_cases h3 : s.action = actionRun
      · rw [if_pos h3] at h
        cases hr : (d.commandRunner.run d.projectPath s.shell
            (runCommands env (env githubWorkspaceKey) s)).2.2 <;> rw [hr] at h <;> simp_all
      · rw [if_neg h3] at h
        simp_all

theorem execPlanStep_continue (d : DiggerExecutor) (env : Str → Str) (s : Step)
    (acc acc' : Str) (evs : List Event) (rest : List Step)
    (h : execPlanStep d env s acc = some (none, acc', evs)) :
    specPlanText d (s :: rest) acc = specPlanText d rest acc' := by
  unfold execPlanStep at h
  by_cases h1 : s.action = actionInit
  · have h2 : ¬s.action = actionPlan := by rw [h1]; decide
    rw [if_pos h1] at h
    have hacc : acc' = acc := by
      cases hi : (d.terraformExecutor.init s.extraArgs d.stateEnvVars).2.2 <;>
          rw [hi] at h <;> simp_all
    rw [hacc]
    show (if s.action = actionPlan then _ else specPlanText d rest acc) = _
    rw [if_neg h2]
  · rw [if_neg h1] at h
    by_cases h2 : s.action = actionPlan
    · rw [if_pos h2] at h
      rcases hp : d.terraformExecutor.plan (planArgsOf d s) d.commandEnvVars with
        ⟨ne1, so1, se1, err1⟩
      rw [hp] at h
      dsimp only at h
      cases err1 with
      | some e => simp_all
      | none =>
        rcases hst : execPlanStorage d with ⟨outS, evsS⟩
        rw [hst] at h
        cases outS with
        | some r => simp_all
        | none =>
          cases hc : cleanupTerraformPlan ne1 none so1 se1 with
          | none => rw [hc] at h; cases h
          | some p' =>
            rw [hc] at h
            simp only [Option.some.injEq, Prod.mk.injEq] at h
            obtain ⟨-, hacc, -⟩ := h
            show (if s.action = actionPlan then _ else _) = _
            rw [if_pos h2]
            show (match d.terraformExecutor.plan (planArgsOf d s) d.commandEnvVars with
              | (ne, so, se, _) =>
                specPlanText d rest ((cleanupTerraformPlan ne none so se).getD acc)) = _
            rw [hp]
            dsimp only
            rw [hc]
            dsimp only [Option.getD]
            rw [hacc]
    · have hacc : acc' = acc := by
        by_cases h3 : s.action = actionRun
        · rw [if_neg h2, if_pos h3] at h
          cases hr : (d.commandRunner.run d.projectPath s.shell
              (runCommands env (env githubWorkspaceKey) s)).2.2 <;> rw [hr] at h <;> simp_all
        · rw [if_neg h2, if_neg h3] at h
          simp_all
      rw [hacc]
      show (if s.action = actionPlan then _ else specPlanText d rest acc) = _
      rw [if_neg h2]

theorem execPlanSteps_true_spec (d : DiggerExecutor) (env : Str → Str)
    (steps : List Step) :
    ∀ acc p er evs, execPlanSteps d env steps acc = some ((true, p, er), evs) →
      p = specPlanText d steps acc := by
  induction steps with
  | nil =>
    intro acc p er evs h
    simp only [execPlanSteps, Option.some.injEq, Prod.mk.injEq] at h
    obtain ⟨⟨-, h2, -⟩, -⟩ := h
    rw [← h2]
    rfl
  | cons s t ih =>
    intro acc p er evs h
    simp only [execPlanSteps] at h
    cases hs : execPlanStep d env s acc with
    | none => rw [hs] at h; cases h
    | some o =>
      rcases o with ⟨o1, acc1, evs1⟩
      rw [hs] at h
      cases o1 with
      | some r1 =>
        dsimp only at h
        simp only [Option.some.injEq, Prod.mk.injEq] at h
        obtain ⟨h1, -⟩ := h
        have hfalse := execPlanStep_early_false d env s acc _ _ _ _ _ hs
        rw [h1] at hfalse
        cases hfalse
      | none =>
        dsimp only at h
        cases ht : execPlanSteps d env t acc1 with
        | none => rw [ht] at h; cases h
        | some re =>
          rcases re with ⟨r2, evs2⟩
          rw [ht] at h
          simp only [Option.some.injEq, Prod.mk.injEq] at h
          obtain ⟨h1, -⟩ := h
          rw [execPlanStep_continue d env s acc acc1 evs1 t hs]
          exact ih acc1 p er evs2 (by rw [ht, h1])

theorem execPlanSteps_unrecognized (d : DiggerExecutor) (env : Str → Str)
    (steps : List Step)
    (h : ∀ s ∈ steps, s.action ≠ actionInit ∧ s.action ≠ actionPlan ∧
      s.action ≠ actionRun) :
    ∀ acc, execPlanSteps d env steps acc = some ((true, acc, none), []) := by
  induction steps with
  | nil => intro acc; rfl
  | cons s t ih =>
    intro acc
    obtain ⟨h1, h2, h3⟩ := h s (List.mem_cons_self s t)
    have hstep : execPlanStep d env s acc = some (none, acc, []) := by
      unfold execPlanStep
      rw [if_neg h1, if_neg h2, if_neg h3]
    simp only [execPlanSteps]
    rw [hstep]
    dsimp only
    rw [ih (fun x hx => h x (List.mem_cons_of_mem s hx)) acc]
    rfl

/-- C10: whenever `Plan` succeeds, the returned plan text is the
left-to-right fold of the stage that keeps the sanitized output of the
most recently executed `plan` step (later plan steps overwrite earlier
ones), starting from the empty string — in particular it is `""` when the
stage has no `plan` step, and a stage of only unrecognized actions yields
`(true, "", nil)` with no external calls. -/
theorem plan_text_last_plan_step :
    (∀ (d : DiggerExecutor) (env : Str → Str) (p : Str) (er : Option GoError)
      (evs : List Event), d.planExec env = some ((true, p, er), evs) →
      p = specPlanText d (planStepsOf d) []) ∧
    (∀ (d : DiggerExecutor) (env : Str → Str),
      (∀ s ∈ planStepsOf d, s.action ≠ actionInit ∧ s.action ≠ actionPlan ∧
        s.action ≠ actionRun) →
      d.planExec env = some ((true, [], none), [])) := by
  constructor
  · intro d env p er evs h
    exact execPlanSteps_true_spec d env (planStepsOf d) [] p er evs h
  · intro d env h
    exact execPlanSteps_unrecognized d env (planStepsOf d) h []

/-- Witness for C10: a stage holding only an unrecognized action returns
`(true, "", nil)` and its plan text matches the specification fold. -/
theorem plan_text_last_plan_step_w :
    ([] : Str) = specPlanText d10 (planStepsOf d10) [] ∧
    d10.planExec envEmpty = some ((true, [], none), []) :=
  ⟨plan_text_last_plan_step.1 d10 envEmpty [] none [] rfl,
    plan_text_last_plan_step.2 d10 envEmpty (by decide)⟩

end Digger


